import Mathlib

/-!
Verification of the sbt-sharding shard assignment engine.

The development shallowly embeds the last (most complete) version of the
module found in src/src/index.ts: the complexity estimator
(analyzeTestComplexity, lines 710-785), the two partitioning algorithms
(shardByComplexity, lines 787-835, and shardByTestFileCount, lines
837-853), the shard counter (calculateOptimalShards, first version,
lines 197-212), and the orchestrator (run, lines 855-973).

File-system interactions (path resolution, stat, read) are environment
queries; they are modelled as explicit inputs, so every definition is a
total computable function.  JavaScript strings are modelled as Lean
strings, JavaScript numbers appearing here are integers (scores and
counts), and the stable Array.prototype.sort is modelled by a stable
insertion sort.
-/

namespace SbtSharding

/-! ## Character and substring primitives

The source lower-cases paths and contents with String.prototype.toLowerCase
and tests substrings with String.prototype.includes.  We model
lower-casing on the ASCII range (test paths and Scala sources in scope are
ASCII) and substring search directly on character lists so that everything
reduces in the kernel. -/

/-- ASCII lower-casing of one character, modelling toLowerCase. -/
def lowerChar (c : Char) : Char :=
  if 'A' ≤ c && c ≤ 'Z' then Char.ofNat (c.toNat + 32) else c

/-- Lower-cased character list of a string. -/
def lowerList (s : String) : List Char :=
  s.toList.map lowerChar

/-- Does the pattern match a leading run of the character list? -/
def matchesAt : List Char → List Char → Bool
  | [], _ => true
  | _ :: _, [] => false
  | w :: ws, c :: cs => c == w && matchesAt ws cs

/-- Does the pattern occur anywhere in the character list?
Models String.prototype.includes. -/
def containsPat (w : List Char) : List Char → Bool
  | [] => w.isEmpty
  | c :: cs => matchesAt w (c :: cs) || containsPat w cs

/-- Substring test used for the includes checks of the estimator. -/
def includesStr (cs : List Char) (pat : String) : Bool :=
  containsPat pat.toList cs

/-- Is the character a word character in the sense of the regex
word-boundary assertion? -/
def isWordChar (c : Char) : Bool :=
  c.isAlphanum || c == '_'

/-- Does the character list start with the word, followed by optional
whitespace and an opening parenthesis?  Models one match of a
word-then-optional-space-then-paren test-declaration regex (the source
counts matches of patterns shaped like a word boundary, the word, optional
whitespace, then an opening parenthesis). -/
def declHead (w : List Char) (cs : List Char) : Bool :=
  matchesAt w cs &&
    (match (cs.drop w.length).dropWhile (·.isWhitespace) with
     | '(' :: _ => true
     | _ => false)

/-- Count the positions at which the test-declaration pattern for the given
word matches, requiring a word boundary before the word.  The boundary flag
records whether the previous character was a non-word character. -/
def countDeclsAux (w : List Char) : List Char → Bool → Nat
  | [], _ => 0
  | c :: cs, boundary =>
    (if boundary && declHead w (c :: cs) then 1 else 0) +
      countDeclsAux w cs (!isWordChar c)

/-- Number of matches of the test-declaration regex for a word in the
content.  Models (content.match of the global regex).length at lines
767-769. -/
def countDecls (w : String) (cs : List Char) : Nat :=
  countDeclsAux w.toList cs true

/-! ## Complexity estimator (analyzeTestComplexity, lines 710-785) -/

/-- The 10 MiB content-analysis ceiling (line 697). -/
def MAX_FILE_SIZE : Nat := 10 * 1024 * 1024

/-- The path-only part of the complexity score: lines 711-733, everything
computed before the try block that touches the file system. -/
def pathOnlyScore (testFile : String) : Nat :=
  let fileName := lowerList testFile
  let score := 1
  let score :=
    if includesStr fileName "property" || includesStr fileName "proptest" ||
        includesStr fileName "propertytest" then
      score + 3
    else score
  let score :=
    if includesStr fileName "integration" || includesStr fileName "container" ||
        includesStr fileName "e2e" || includesStr fileName "endtoend" then
      score + 4
    else score
  if includesStr fileName "unit" || includesStr fileName "unittest" then
    max (score - 1) 1
  else score

/-- The additions contributed by a successfully read (already lower-cased)
file content: lines 755-781. -/
def contentScore (content : List Char) : Nat :=
  let s1 :=
    if includesStr content "property" || includesStr content "proptest" then 2 else 0
  let s2 :=
    if includesStr content "container" || includesStr content "@container" then 3 else 0
  let s3 :=
    if includesStr content "integration" || includesStr content "@integration" then 2 else 0
  let totalTests := countDecls "test" content + countDecls "it" content +
    countDecls "describe" content
  let s4 := if totalTests > 20 then 2 else if totalTests > 10 then 1 else 0
  let s5 := if content.length > 5000 then 1 else 0
  s1 + s2 + s3 + s4 + s5

/-- Outcome of the file-system interactions of the estimator, supplied as
input.  validPath is the result of isValidTestFilePath (lines 699-708,
path resolution being an operating-system query), stat is the size
returned by statSync or none when it throws, and read is the raw content
returned by readFileSync or none when it throws. -/
structure FsEnv where
  validPath : Bool
  stat : Option Nat
  read : Option String
deriving Repr, DecidableEq

/-- The complexity estimator, lines 710-785: path-only score first, then a
best-effort content analysis guarded by the path-containment check and the
size ceiling.  Returns the score together with the warning diagnostics
emitted on the way; any file-system failure is swallowed by the catch
block and yields the path-only score. -/
def analyzeTestComplexity (env : FsEnv) (testFile : String) : Nat × List String :=
  let score := pathOnlyScore testFile
  if !env.validPath then
    (score, ["Invalid file path detected (possible path traversal): " ++ testFile])
  else
    match env.stat with
    | none => (score, [])
    | some size =>
      if size > MAX_FILE_SIZE then
        (score,
          ["File too large for complexity analysis (" ++ toString size ++
            " bytes > " ++ toString MAX_FILE_SIZE ++ "): " ++ testFile])
      else
        match env.read with
        | none => (score, [])
        | some raw => (score + contentScore (lowerList raw), [])

/-! ## Weighted partitioning (shardByComplexity, lines 787-835)

The per-file weight computation calls the estimator, whose outcome depends
on the file system; the partitioning logic itself is pure in the resulting
weights, so it is parameterized by a weight function. -/

/-- One weighted file, mirroring the TestComplexity record (lines 692-695). -/
structure TestComplexity where
  file : String
  score : Nat
deriving Repr, DecidableEq

/-- The weights list built at lines 795-801. -/
def complexityWeights (w : String → Nat) (testFiles : List String) : List TestComplexity :=
  testFiles.map (fun file => { file := file, score := w file })

/-- Stable insertion of one element into a list sorted by score descending:
the element moves past exactly the strictly heavier elements, so an
earlier element is placed before later elements of equal score. -/
def insertByScoreDesc (t : TestComplexity) : List TestComplexity → List TestComplexity
  | [] => [t]
  | u :: us =>
    if t.score < u.score then u :: insertByScoreDesc t us
    else t :: u :: us

/-- Stable sort by score descending, modelling the stable
Array.prototype.sort with comparator on scores (line 803). -/
def sortByScoreDesc : List TestComplexity → List TestComplexity
  | [] => []
  | t :: ts => insertByScoreDesc t (sortByScoreDesc ts)

/-- The sorted weights the greedy loop consumes (lines 795-803). -/
def sortedWeights (w : String → Nat) (testFiles : List String) : List TestComplexity :=
  sortByScoreDesc (complexityWeights w testFiles)

/-- Index of the shard with the lowest running total, lines 809-817: the
source scans indices from 1 upward and replaces the candidate only on a
strictly smaller total, so ties keep the lowest index.  The scan is
modelled as a fold over all indices; the extra index-0 step is the
identity because the comparison is strict. -/
def minScoreIndex (shardScores : List Nat) : Nat :=
  (List.range shardScores.length).foldl
    (fun best i => if shardScores.getD i 0 < shardScores.getD best 0 then i else best) 0

/-- The greedy assignment loop, lines 808-821: each weighted file in order
is pushed onto the shard with the lowest running total and its score is
added to that total. -/
def assignTests :
    List TestComplexity → List (List String) → List Nat → List (List String) × List Nat
  | [], shards, shardScores => (shards, shardScores)
  | t :: rest, shards, shardScores =>
    let i := minScoreIndex shardScores
    assignTests rest
      (shards.set i (shards.getD i [] ++ [t.file]))
      (shardScores.set i (shardScores.getD i 0 + t.score))

/-- The weighted partitioning algorithm, lines 787-835, parameterized by
the per-file weight (the analyzeTestComplexity outcome). -/
def shardByComplexity (w : String → Nat) (testFiles : List String) (maxShards : Nat) :
    List (List String) :=
  let totalFiles := testFiles.length
  let actualShards := min maxShards totalFiles
  if totalFiles == 0 then []
  else
    (assignTests (sortedWeights w testFiles)
      (List.replicate actualShards []) (List.replicate actualShards 0)).1

/-! ## Round-robin partitioning (shardByTestFileCount, lines 837-853) -/

/-- The forEach loop of lines 847-850: the file at a given running index is
pushed onto the shard at index mod actualShards. -/
def distributeRoundRobin (actualShards : Nat) :
    List String → Nat → List (List String) → List (List String)
  | [], _, shards => shards
  | file :: rest, index, shards =>
    let shardIndex := index % actualShards
    distributeRoundRobin actualShards rest (index + 1)
      (shards.set shardIndex (shards.getD shardIndex [] ++ [file]))

/-- The even-distribution partitioning algorithm, lines 837-853. -/
def shardByTestFileCount (testFiles : List String) (maxShards : Nat) :
    List (List String) :=
  let totalFiles := testFiles.length
  let actualShards := min maxShards totalFiles
  if totalFiles == 0 then []
  else distributeRoundRobin actualShards testFiles 0 (List.replicate actualShards [])

/-! ## Shard counter (calculateOptimalShards, first version, lines 197-212) -/

/-- The auto-shard recommendation: 1 for up to 5 files, the ceiling of a
fifth for up to 20 files, the ceiling of a tenth beyond, capped at 10. -/
def calculateOptimalShards (testFileCount : Nat) : Nat :=
  if testFileCount == 0 then 1
  else
    let baseShards :=
      if testFileCount ≤ 5 then 1
      else if testFileCount ≤ 20 then (testFileCount + 4) / 5
      else (testFileCount + 9) / 10
    min baseShards 10

/-! ## Historical weight resolver -/

/-- Modelled from the spec: the Historical Weight Resolver (getTestWeight)
is not present under src/ — only its tests survive in the repository.
Spec 4.2: if the historical map is present and contains a finite recorded
value for the path, return it verbatim; otherwise return the complexity
score.  Rationals model the (always finite) JavaScript numbers of the
validated map, and the map itself is an association list. -/
def getTestWeight (path : String) (historicalData : Option (List (String × ℚ)))
    (complexityScore : ℚ) : ℚ :=
  match historicalData with
  | none => complexityScore
  | some m =>
    match m.lookup path with
    | some v => v
    | none => complexityScore

/-! ## Orchestrator (run, lines 855-973)

Configuration strings, the discovered file list, path validity and the
per-file weights are inputs from the environment; the translation of shard
files into runner commands and the output/export plumbing are external
collaborators per the spec and are not part of the planning result. -/

/-- The defaulting idiom of the action inputs: getInput(name) or a
default, where the empty string is the absent value. -/
def orDefault (s d : String) : String :=
  if s == "" then d else s

/-- JavaScript parseInt with radix 10 on the trimmed leading integer:
optional sign followed by decimal digits; none models NaN. -/
def parseIntJS (s : String) : Option Int :=
  let cs := s.toList.dropWhile (·.isWhitespace)
  let signed : Int × List Char :=
    match cs with
    | '-' :: rest => (-1, rest)
    | '+' :: rest => (1, rest)
    | _ => (1, cs)
  let digits := signed.2.takeWhile (·.isDigit)
  if digits.isEmpty then none
  else some (signed.1 * (digits.foldl (fun acc c => 10 * acc + (c.toNat - '0'.toNat)) 0 : Nat))

/-- The raw action inputs (getInput results; the empty string is the
absent value, as in the actions toolkit). -/
structure RunInputs where
  maxShardsInput : String
  shardNumberInput : String
  algorithmInput : String
  projectPathInput : String
deriving Repr, DecidableEq

/-- The environmental collaborators of run: the isValidPath verdict on the
project path (path resolution is an operating-system query), the
discovered test files (external glob), and the per-file weight
(analyzeTestComplexity outcome). -/
structure RunEnv where
  validPath : String → Bool
  discovered : List String
  weight : String → Nat

/-- The planning result run reports through its outputs: the total shard
count, the full distribution, and the clamped current shard contents. -/
structure RunOutput where
  totalShards : Nat
  shards : List (List String)
  currentShardFiles : List String
deriving Repr, DecidableEq

/-- The reporting tail of run after the algorithm switch, lines 924-947:
the total shard count, the full distribution, and the current shard
selected by the 1-based index clamped to the last available shard. -/
def runFinish (currentShard : Int) (shards : List (List String)) : Except String RunOutput :=
  Except.ok
    { totalShards := shards.length
      shards := shards
      currentShardFiles := shards.getD (min (currentShard - 1).toNat (shards.length - 1)) [] }

/-- The orchestrator, lines 855-973.  The catch-all handler routes every
thrown message to setFailed, modelled by the error case; the local
constants of the source (shardNumberInput, algorithm, testFiles,
maxShards) are inlined. -/
def run (env : RunEnv) (inp : RunInputs) : Except String RunOutput :=
  if inp.projectPathInput != "" && inp.projectPathInput.length > 512 then
    Except.error "Project-path too long"
  else if inp.projectPathInput != "" && !env.validPath inp.projectPathInput then
    Except.error "Invalid project-path"
  else
    match parseIntJS (orDefault inp.shardNumberInput "1") with
    | none => Except.error "shard-number must be a positive integer"
    | some currentShard =>
      if currentShard < 1 then Except.error "shard-number must be a positive integer"
      else if inp.maxShardsInput == "" then Except.error "max-shards is required"
      else
        match parseIntJS inp.maxShardsInput with
        | none => Except.error "max-shards must be a positive integer"
        | some ms =>
          if ms < 1 then Except.error "max-shards must be a positive integer"
          else if ms > 100 then Except.error "max-shards cannot exceed 100"
          else if env.discovered.length == 0 then
            Except.ok { totalShards := 1, shards := [], currentShardFiles := [] }
          else if orDefault inp.algorithmInput "round-robin" == "round-robin" then
            runFinish currentShard (shardByTestFileCount env.discovered ms.toNat)
          else if orDefault inp.algorithmInput "round-robin" == "complexity" then
            runFinish currentShard (shardByComplexity env.weight env.discovered ms.toNat)
          else
            Except.error ("Unknown algorithm: " ++ orDefault inp.algorithmInput "round-robin")

/-- The failure causes enumerated by the specification claim about run:
absent, non-positive or non-numeric max-shards, max-shards above the hard
ceiling of 100, or an unknown algorithm name. -/
def claimedConfigError (inp : RunInputs) : Bool :=
  inp.maxShardsInput == "" ||
  (match parseIntJS inp.maxShardsInput with
   | none => true
   | some ms => ms < 1 || ms > 100) ||
  (orDefault inp.algorithmInput "round-robin" != "round-robin" &&
   orDefault inp.algorithmInput "round-robin" != "complexity")

/-- The complete validation-failure predicate of run: project-path too
long or invalid, non-positive or non-numeric shard-number, absent,
non-positive, non-numeric or over-the-ceiling max-shards, or an unknown
algorithm name reached with a non-empty file list. -/
def runValidationFails (env : RunEnv) (inp : RunInputs) : Bool :=
  (inp.projectPathInput != "" && inp.projectPathInput.length > 512) ||
  (inp.projectPathInput != "" && !env.validPath inp.projectPathInput) ||
  (match parseIntJS (orDefault inp.shardNumberInput "1") with
   | none => true
   | some currentShard => currentShard < 1) ||
  inp.maxShardsInput == "" ||
  (match parseIntJS inp.maxShardsInput with
   | none => true
   | some ms => ms < 1 || ms > 100) ||
  (!(env.discovered.length == 0) &&
    (!(orDefault inp.algorithmInput "round-robin" == "round-robin") &&
     !(orDefault inp.algorithmInput "round-robin" == "complexity")))

/-! ## Derived weight notions used by the statements -/

/-- Aggregate weight of one shard: the sum of its files' weights. -/
def shardWeight (w : String → Nat) (shard : List String) : Nat :=
  (shard.map w).sum

/-- Total weight of all files. -/
def totalWeight (w : String → Nat) (files : List String) : Nat :=
  (files.map w).sum

/-- Maximum single file weight. -/
def maxSingleWeight (w : String → Nat) (files : List String) : Nat :=
  (files.map w).foldr max 0

/-! ## Properties of the stable descending sort -/

theorem insertByScoreDesc_perm (t : TestComplexity) (l : List TestComplexity) :
    List.Perm (insertByScoreDesc t l) (t :: l) := by
  induction l with
  | nil => simp [insertByScoreDesc]
  | cons u us ih =>
    by_cases h : t.score < u.score
    · simp only [insertByScoreDesc, if_pos h]
      exact (ih.cons u).trans (List.Perm.swap t u us)
    · simp only [insertByScoreDesc, if_neg h]
      exact List.Perm.refl _

theorem sortByScoreDesc_perm (l : List TestComplexity) :
    List.Perm (sortByScoreDesc l) l := by
  induction l with
  | nil => simp [sortByScoreDesc]
  | cons t ts ih =>
    exact (insertByScoreDesc_perm t (sortByScoreDesc ts)).trans (ih.cons t)

theorem insertByScoreDesc_sorted {t : TestComplexity} {l : List TestComplexity}
    (hl : l.Pairwise (fun a b => b.score ≤ a.score)) :
    (insertByScoreDesc t l).Pairwise (fun a b => b.score ≤ a.score) := by
  induction l with
  | nil => simp [insertByScoreDesc]
  | cons u us ih =>
    rcases List.pairwise_cons.mp hl with ⟨hu, hus⟩
    by_cases h : t.score < u.score
    · simp only [insertByScoreDesc, if_pos h]
      refine List.pairwise_cons.mpr ⟨?_, ih hus⟩
      intro b hb
      rcases List.mem_cons.mp ((insertByScoreDesc_perm t us).mem_iff.mp hb) with hb | hb
      · subst hb; omega
      · exact hu b hb
    · simp only [insertByScoreDesc, if_neg h]
      refine List.pairwise_cons.mpr ⟨?_, hl⟩
      intro b hb
      rcases List.mem_cons.mp hb with hb | hb
      · subst hb; omega
      · have := hu b hb; omega

theorem sortByScoreDesc_sorted (l : List TestComplexity) :
    (sortByScoreDesc l).Pairwise (fun a b => b.score ≤ a.score) := by
  induction l with
  | nil => simp [sortByScoreDesc]
  | cons t ts ih => exact insertByScoreDesc_sorted ih

theorem filter_insertByScoreDesc (c : Nat) (t : TestComplexity) (l : List TestComplexity) :
    (insertByScoreDesc t l).filter (fun u => u.score == c) =
      if t.score == c then t :: l.filter (fun u => u.score == c)
      else l.filter (fun u => u.score == c) := by
  induction l with
  | nil =>
    by_cases ht : t.score = c <;> simp [insertByScoreDesc, List.filter_cons, ht]
  | cons u us ih =>
    by_cases h : t.score < u.score
    · simp only [insertByScoreDesc, if_pos h, List.filter_cons]
      rw [ih]
      by_cases hu : u.score = c <;> by_cases ht : t.score = c <;> simp [hu, ht] <;> omega
    · simp only [insertByScoreDesc, if_neg h, List.filter_cons]

theorem filter_sortByScoreDesc (c : Nat) (l : List TestComplexity) :
    (sortByScoreDesc l).filter (fun u => u.score == c) =
      l.filter (fun u => u.score == c) := by
  induction l with
  | nil => rfl
  | cons t ts ih =>
    simp only [sortByScoreDesc, filter_insertByScoreDesc, List.filter_cons]
    rw [ih]

/-! ## The leftmost-minimum property of the shard-selection scan -/

theorem foldlArgmin_spec (f : Nat → Nat) (n : Nat) :
    (((List.range n).foldl (fun best i => if f i < f best then i else best) 0) = 0 ∨
      ((List.range n).foldl (fun best i => if f i < f best then i else best) 0) < n) ∧
    (∀ j, j < n →
      f ((List.range n).foldl (fun best i => if f i < f best then i else best) 0) ≤ f j) ∧
    (∀ j, j < ((List.range n).foldl (fun best i => if f i < f best then i else best) 0) →
      f ((List.range n).foldl (fun best i => if f i < f best then i else best) 0) < f j) := by
  induction n with
  | zero =>
    refine ⟨Or.inl (by simp), fun j hj => by simp at hj, fun j hj => by simp at hj⟩
  | succ n ih =>
    rcases ih with ⟨hb, hmin, hleft⟩
    rw [List.range_succ, List.foldl_append]
    set b := (List.range n).foldl (fun best i => if f i < f best then i else best) 0
    simp only [List.foldl_cons, List.foldl_nil]
    by_cases h : f n < f b
    · rw [if_pos h]
      refine ⟨Or.inr (by omega), ?_, ?_⟩
      · intro j hj
        rcases Nat.lt_succ_iff_lt_or_eq.mp hj with hj | hj
        · exact le_of_lt (lt_of_lt_of_le h (hmin j hj))
        · subst hj; exact le_refl _
      · intro j hj
        exact lt_of_lt_of_le h (hmin j hj)
    · rw [if_neg h]
      refine ⟨hb.imp id (fun hlt => by omega), ?_, hleft⟩
      intro j hj
      rcases Nat.lt_succ_iff_lt_or_eq.mp hj with hj | hj
      · exact hmin j hj
      · subst hj; omega

theorem minScoreIndex_lt_length {shardScores : List Nat} (h : shardScores ≠ []) :
    minScoreIndex shardScores < shardScores.length := by
  have := (foldlArgmin_spec (fun i => shardScores.getD i 0) shardScores.length).1
  have hlen : 0 < shardScores.length := List.length_pos.mpr h
  unfold minScoreIndex
  rcases this with h0 | hlt
  · rw [h0]; exact hlen
  · exact hlt

theorem minScoreIndex_min (shardScores : List Nat) :
    ∀ j, j < shardScores.length →
      shardScores.getD (minScoreIndex shardScores) 0 ≤ shardScores.getD j 0 :=
  (foldlArgmin_spec (fun i => shardScores.getD i 0) shardScores.length).2.1

theorem minScoreIndex_leftmost (shardScores : List Nat) :
    ∀ j, j < minScoreIndex shardScores →
      shardScores.getD (minScoreIndex shardScores) 0 < shardScores.getD j 0 :=
  (foldlArgmin_spec (fun i => shardScores.getD i 0) shardScores.length).2.2

/-! ## Pushing onto one inner list -/

theorem flatten_set_push {α : Type} (shards : List (List α)) (i : Nat)
    (hi : i < shards.length) (a : α) :
    List.Perm (shards.set i (shards.getD i [] ++ [a])).flatten (a :: shards.flatten) := by
  have hset := List.set_eq_take_append_cons_drop (l := shards)
    (n := i) (a := shards.getD i [] ++ [a])
  rw [if_pos hi] at hset
  have hgd : shards.getD i [] = shards[i] := List.getD_eq_getElem shards [] hi
  have hsplit : shards = shards.take i ++ shards[i] :: shards.drop (i + 1) := by
    rw [← List.drop_eq_getElem_cons hi, List.take_append_drop]
  have hflat : shards.flatten =
      (shards.take i).flatten ++ (shards[i] ++ (shards.drop (i + 1)).flatten) := by
    conv_lhs => rw [hsplit]
    rw [List.flatten_append, List.flatten_cons]
  rw [hset, hgd, hflat]
  have e1 : (shards.take i ++ (shards[i] ++ [a]) :: shards.drop (i + 1)).flatten =
      ((shards.take i).flatten ++ shards[i]) ++ a :: (shards.drop (i + 1)).flatten := by
    simp only [List.flatten_append, List.flatten_cons, List.append_assoc,
      List.singleton_append]
  have e2 : (shards.take i).flatten ++ (shards[i] ++ (shards.drop (i + 1)).flatten) =
      ((shards.take i).flatten ++ shards[i]) ++ (shards.drop (i + 1)).flatten := by
    simp only [List.append_assoc]
  rw [e1, e2]
  exact List.perm_middle

theorem getD_set_general {α : Type} (l : List α) (i j : Nat) (v d : α) :
    (l.set i v).getD j d = if i = j ∧ i < l.length then v else l.getD j d := by
  by_cases hij : i = j
  · subst hij
    by_cases hi : i < l.length
    · rw [if_pos ⟨rfl, hi⟩, List.getD_eq_getElem _ _ (by simpa using hi), List.getElem_set]
      simp
    · rw [List.set_eq_of_length_le (by omega), if_neg (by omega)]
  · rw [if_neg (by tauto)]
    by_cases hj : j < l.length
    · rw [List.getD_eq_getElem _ _ (by simpa using hj), List.getD_eq_getElem _ _ hj,
        List.getElem_set, if_neg hij]
    · have h1 : l.length ≤ j := by omega
      have h2 : (l.set i v).length ≤ j := by simpa using h1
      rw [List.getD_eq_getElem?_getD, List.getElem?_eq_none h2,
        List.getD_eq_getElem?_getD, List.getElem?_eq_none h1]

theorem getD_map_shardWeight (w : String → Nat) (l : List (List String)) (i : Nat)
    (hi : i < l.length) :
    (l.map (shardWeight w)).getD i 0 = shardWeight w (l.getD i []) := by
  rw [List.getD_eq_getElem _ _ (by simpa using hi), List.getD_eq_getElem _ _ hi,
    List.getElem_map]

theorem sum_set_add (l : List Nat) (i : Nat) (hi : i < l.length) (x : Nat) :
    (l.set i (l.getD i 0 + x)).sum = l.sum + x := by
  have hsplit : l = l.take i ++ l[i] :: l.drop (i + 1) := by
    rw [← List.drop_eq_getElem_cons hi, List.take_append_drop]
  have hset := List.set_eq_take_append_cons_drop (l := l) (n := i) (a := l.getD i 0 + x)
  rw [if_pos hi] at hset
  have h1 : l.sum = (l.take i).sum + (l[i] + (l.drop (i + 1)).sum) := by
    conv_lhs => rw [hsplit]
    rw [List.sum_append, List.sum_cons]
  rw [hset, List.sum_append, List.sum_cons, List.getD_eq_getElem _ _ hi, h1]
  omega

theorem length_mul_le_sum_of_le (m : Nat) :
    ∀ (l : List Nat), (∀ j, j < l.length → m ≤ l.getD j 0) → l.length * m ≤ l.sum := by
  intro l
  induction l with
  | nil => intro _; simp
  | cons x xs ih =>
    intro h
    have hx : m ≤ x := h 0 (by simp)
    have hxs := ih (fun j hj => h (j + 1) (by simpa using hj))
    simp only [List.length_cons, List.sum_cons, Nat.succ_mul]
    omega

/-! ## Round-robin distribution lemmas -/

theorem distributeRoundRobin_length (k : Nat) :
    ∀ (l : List String) (idx : Nat) (shards : List (List String)),
      (distributeRoundRobin k l idx shards).length = shards.length := by
  intro l
  induction l with
  | nil => intro idx shards; rfl
  | cons f rest ih =>
    intro idx shards
    simp only [distributeRoundRobin]
    rw [ih]
    simp

theorem distributeRoundRobin_flatten (k : Nat) (hk : 0 < k) :
    ∀ (l : List String) (idx : Nat) (shards : List (List String)), shards.length = k →
      List.Perm (distributeRoundRobin k l idx shards).flatten (shards.flatten ++ l) := by
  intro l
  induction l with
  | nil =>
    intro idx shards _
    simp [distributeRoundRobin]
  | cons f rest ih =>
    intro idx shards hlen
    simp only [distributeRoundRobin]
    have hi : idx % k < shards.length := by rw [hlen]; exact Nat.mod_lt _ hk
    have h1 := ih (idx + 1)
      (shards.set (idx % k) (shards.getD (idx % k) [] ++ [f])) (by simp [hlen])
    refine h1.trans ?_
    refine ((flatten_set_push shards (idx % k) hi f).append_right rest).trans ?_
    have hca : (f :: shards.flatten) ++ rest = f :: (shards.flatten ++ rest) := by simp
    rw [hca]
    exact (show List.Perm (shards.flatten ++ f :: rest) (f :: (shards.flatten ++ rest)) from
      List.perm_middle).symm

theorem distributeRoundRobin_grow (k : Nat) :
    ∀ (l : List String) (idx : Nat) (shards : List (List String)) (j : Nat),
      ∃ tail, (distributeRoundRobin k l idx shards).getD j [] = shards.getD j [] ++ tail := by
  intro l
  induction l with
  | nil =>
    intro idx shards j
    exact ⟨[], by simp [distributeRoundRobin]⟩
  | cons f rest ih =>
    intro idx shards j
    simp only [distributeRoundRobin]
    obtain ⟨tail, htail⟩ :=
      ih (idx + 1) (shards.set (idx % k) (shards.getD (idx % k) [] ++ [f])) j
    rw [htail, getD_set_general]
    by_cases hc : idx % k = j ∧ idx % k < shards.length
    · rw [if_pos hc, ← hc.1]
      exact ⟨[f] ++ tail, by simp⟩
    · rw [if_neg hc]
      exact ⟨tail, rfl⟩

theorem distributeRoundRobin_nonempty (k : Nat) (hk : 0 < k) :
    ∀ (l : List String) (idx : Nat) (shards : List (List String)), shards.length = k →
      ∀ j, (∃ p, p < l.length ∧ (idx + p) % k = j) →
      (distributeRoundRobin k l idx shards).getD j [] ≠ [] := by
  intro l
  induction l with
  | nil =>
    intro idx shards _ j hp
    obtain ⟨p, hp, _⟩ := hp
    simp at hp
  | cons f rest ih =>
    intro idx shards hlen j hp
    obtain ⟨p, hplen, hpj⟩ := hp
    simp only [distributeRoundRobin]
    by_cases hp0 : p = 0
    · subst hp0
      have hj : idx % k = j := by simpa using hpj
      have hi : idx % k < shards.length := by rw [hlen]; exact Nat.mod_lt _ hk
      obtain ⟨tail, htail⟩ :=
        distributeRoundRobin_grow k rest (idx + 1)
          (shards.set (idx % k) (shards.getD (idx % k) [] ++ [f])) j
      rw [htail, getD_set_general, if_pos ⟨hj, hi⟩]
      simp
    · obtain ⟨q, hq⟩ : ∃ q, p = q + 1 := ⟨p - 1, by omega⟩
      refine ih (idx + 1) (shards.set (idx % k) (shards.getD (idx % k) [] ++ [f]))
        (by simp [hlen]) j ⟨q, by simp at hplen; omega, ?_⟩
      rw [show idx + 1 + q = idx + p by omega]
      exact hpj

/-! ## Greedy assignment lemmas -/

theorem assignTests_length :
    ∀ (l : List TestComplexity) (shards : List (List String)) (scores : List Nat),
      (assignTests l shards scores).1.length = shards.length ∧
      (assignTests l shards scores).2.length = scores.length := by
  intro l
  induction l with
  | nil => intro shards scores; exact ⟨rfl, rfl⟩
  | cons t rest ih =>
    intro shards scores
    simp only [assignTests]
    rcases ih (shards.set (minScoreIndex scores)
        (shards.getD (minScoreIndex scores) [] ++ [t.file]))
      (scores.set (minScoreIndex scores)
        (scores.getD (minScoreIndex scores) 0 + t.score)) with ⟨h1, h2⟩
    rw [h1, h2]
    simp

theorem assignTests_flatten :
    ∀ (l : List TestComplexity) (shards : List (List String)) (scores : List Nat),
      scores.length = shards.length → 0 < shards.length →
      List.Perm (assignTests l shards scores).1.flatten
        (shards.flatten ++ l.map (fun t => t.file)) := by
  intro l
  induction l with
  | nil =>
    intro shards scores _ _
    simp [assignTests]
  | cons t rest ih =>
    intro shards scores hlen hpos
    simp only [assignTests]
    have hne : scores ≠ [] := by
      intro h
      rw [h] at hlen
      simp at hlen
      omega
    have hi : minScoreIndex scores < shards.length :=
      hlen ▸ minScoreIndex_lt_length hne
    have h1 := ih
      (shards.set (minScoreIndex scores)
        (shards.getD (minScoreIndex scores) [] ++ [t.file]))
      (scores.set (minScoreIndex scores)
        (scores.getD (minScoreIndex scores) 0 + t.score))
      (by simp [hlen]) (by simpa using hpos)
    refine h1.trans ?_
    refine ((flatten_set_push shards (minScoreIndex scores) hi t.file).append_right
      (rest.map (fun t => t.file))).trans ?_
    have hca : (t.file :: shards.flatten) ++ rest.map (fun t => t.file) =
        t.file :: (shards.flatten ++ rest.map (fun t => t.file)) := by simp
    rw [hca]
    exact (show List.Perm (shards.flatten ++ t.file :: rest.map (fun t => t.file))
        (t.file :: (shards.flatten ++ rest.map (fun t => t.file))) from
      List.perm_middle).symm

theorem assignTests_scores_eq (w : String → Nat) :
    ∀ (l : List TestComplexity) (shards : List (List String)) (scores : List Nat),
      scores = shards.map (shardWeight w) → 0 < shards.length →
      (∀ t ∈ l, t.score = w t.file) →
      (assignTests l shards scores).2 = (assignTests l shards scores).1.map (shardWeight w) := by
  intro l
  induction l with
  | nil =>
    intro shards scores hsc _ _
    simpa [assignTests] using hsc
  | cons t rest ih =>
    intro shards scores hsc hpos hw
    subst hsc
    simp only [assignTests]
    have hne : shards.map (shardWeight w) ≠ [] := by
      simp only [ne_eq, List.map_eq_nil_iff]
      intro h
      rw [h] at hpos
      simp at hpos
    have hi : minScoreIndex (shards.map (shardWeight w)) < shards.length := by
      have := minScoreIndex_lt_length hne
      simpa using this
    have hgd : (shards.map (shardWeight w)).getD (minScoreIndex (shards.map (shardWeight w))) 0 =
        shardWeight w (shards.getD (minScoreIndex (shards.map (shardWeight w))) []) :=
      getD_map_shardWeight w shards _ hi
    have hstep : (shards.map (shardWeight w)).set (minScoreIndex (shards.map (shardWeight w)))
          ((shards.map (shardWeight w)).getD (minScoreIndex (shards.map (shardWeight w))) 0 +
            t.score) =
        (shards.set (minScoreIndex (shards.map (shardWeight w)))
          (shards.getD (minScoreIndex (shards.map (shardWeight w))) [] ++ [t.file])).map
          (shardWeight w) := by
      rw [List.map_set, hgd, hw t (by simp)]
      simp [shardWeight]
    rw [hstep]
    exact ih _ _ rfl (by simpa using hpos) (fun u hu => hw u (by simp [hu]))

theorem assignTests_scores_sum :
    ∀ (l : List TestComplexity) (shards : List (List String)) (scores : List Nat),
      scores ≠ [] →
      (assignTests l shards scores).2.sum = scores.sum + (l.map (fun t => t.score)).sum := by
  intro l
  induction l with
  | nil =>
    intro shards scores _
    simp [assignTests]
  | cons t rest ih =>
    intro shards scores hne
    simp only [assignTests]
    have hi : minScoreIndex scores < scores.length := minScoreIndex_lt_length hne
    have hne2 : scores.set (minScoreIndex scores)
        (scores.getD (minScoreIndex scores) 0 + t.score) ≠ [] := by
      intro h
      have hlen := congrArg List.length h
      have h0 : scores.length = 0 := by simpa using hlen
      exact hne (List.length_eq_zero.mp h0)
    rw [ih _ _ hne2, sum_set_add _ _ hi]
    simp
    omega

theorem assignTests_bound (M k : Nat) (hk : 0 < k) :
    ∀ (l : List TestComplexity) (shards : List (List String)) (scores : List Nat),
      scores.length = k →
      (∀ t ∈ l, t.score ≤ M) →
      (∀ i, i < k → k * scores.getD i 0 ≤ scores.sum + (k - 1) * M) →
      ∀ i, i < k → k * (assignTests l shards scores).2.getD i 0 ≤
        (assignTests l shards scores).2.sum + (k - 1) * M := by
  intro l
  induction l with
  | nil =>
    intro shards scores _ _ hinv i hik
    simpa [assignTests] using hinv i hik
  | cons t rest ih =>
    intro shards scores hlen hM hinv i hik
    simp only [assignTests]
    have hne : scores ≠ [] := by
      intro h
      rw [h] at hlen
      simp at hlen
      omega
    have hi0 : minScoreIndex scores < scores.length := minScoreIndex_lt_length hne
    have hsum : (scores.set (minScoreIndex scores)
        (scores.getD (minScoreIndex scores) 0 + t.score)).sum = scores.sum + t.score :=
      sum_set_add _ _ hi0 _
    have htM : t.score ≤ M := hM t (by simp)
    have hkmin : k * scores.getD (minScoreIndex scores) 0 ≤ scores.sum := by
      have := length_mul_le_sum_of_le (scores.getD (minScoreIndex scores) 0) scores
        (fun j hj => minScoreIndex_min scores j hj)
      rw [hlen, Nat.mul_comm] at this
      rw [Nat.mul_comm]
      exact this
    have hks : k * t.score = t.score + (k - 1) * t.score := by
      cases k with
      | zero => omega
      | succ n =>
        rw [Nat.succ_mul, Nat.succ_sub_one]
        omega
    refine ih _ _ (by simpa using hlen) (fun u hu => hM u (by simp [hu])) ?_ i hik
    intro j hjk
    rw [hsum, getD_set_general]
    by_cases hc : minScoreIndex scores = j ∧ minScoreIndex scores < scores.length
    · rw [if_pos hc]
      have h1 : k * (scores.getD (minScoreIndex scores) 0 + t.score) =
          k * scores.getD (minScoreIndex scores) 0 + k * t.score := by ring
      rw [h1, hks]
      have h2 : (k - 1) * t.score ≤ (k - 1) * M := Nat.mul_le_mul_left _ htM
      omega
    · rw [if_neg hc]
      have := hinv j hjk
      omega

theorem assignTests_nonzero (k : Nat) (hk : 0 < k) :
    ∀ (l : List TestComplexity) (m : Nat) (shards : List (List String)) (scores : List Nat),
      scores.length = k → m ≤ k →
      (∀ t ∈ l, 1 ≤ t.score) →
      (∀ i, i < k → (scores.getD i 0 = 0 ↔ m ≤ i)) →
      ∀ i, i < k →
        ((assignTests l shards scores).2.getD i 0 = 0 ↔ min (m + l.length) k ≤ i) := by
  intro l
  induction l with
  | nil =>
    intro m shards scores _ hmk _ hinv i hik
    have h0 : min (m + List.length ([] : List TestComplexity)) k = m := by
      simp only [List.length_nil]
      omega
    rw [h0]
    simpa [assignTests] using hinv i hik
  | cons t rest ih =>
    intro m shards scores hlen hmk hpos hinv i hik
    simp only [assignTests]
    have hne : scores ≠ [] := by
      intro h
      rw [h] at hlen
      simp at hlen
      omega
    have hi0 : minScoreIndex scores < scores.length := minScoreIndex_lt_length hne
    have hts : 1 ≤ t.score := hpos t (by simp)
    by_cases hm : m < k
    · have him : minScoreIndex scores = m := by
        have hm0 : scores.getD m 0 = 0 := (hinv m hm).mpr (le_refl m)
        have hle := minScoreIndex_min scores m (by omega)
        rw [hm0] at hle
        have h0 : scores.getD (minScoreIndex scores) 0 = 0 := by omega
        have hmi : m ≤ minScoreIndex scores := (hinv (minScoreIndex scores) (by omega)).mp h0
        by_contra hne2
        have hlt : m < minScoreIndex scores := by omega
        have := minScoreIndex_leftmost scores m hlt
        rw [hm0] at this
        omega
      have hinv2 : ∀ j, j < k →
          ((scores.set (minScoreIndex scores)
            (scores.getD (minScoreIndex scores) 0 + t.score)).getD j 0 = 0 ↔ m + 1 ≤ j) := by
        intro j hjk
        rw [getD_set_general]
        by_cases hc : minScoreIndex scores = j ∧ minScoreIndex scores < scores.length
        · rw [if_pos hc]
          have h0 : scores.getD (minScoreIndex scores) 0 = 0 := by
            rw [him]
            exact (hinv m hm).mpr (le_refl m)
          rw [h0]
          constructor
          · intro h
            omega
          · intro h
            omega
        · rw [if_neg hc]
          have hjm : j ≠ m := by
            intro h
            exact hc ⟨by omega, by omega⟩
          have hj := hinv j hjk
          constructor
          · intro h
            have := hj.mp h
            omega
          · intro h
            exact hj.mpr (by omega)
      have hres := ih (m + 1)
        (shards.set (minScoreIndex scores)
          (shards.getD (minScoreIndex scores) [] ++ [t.file]))
        (scores.set (minScoreIndex scores)
          (scores.getD (minScoreIndex scores) 0 + t.score))
        (by simpa using hlen) (by omega)
        (fun u hu => hpos u (by simp [hu])) hinv2 i hik
      have harith : min (m + 1 + rest.length) k = min (m + (rest.length + 1)) k := by omega
      rw [harith] at hres
      simpa using hres
    · have hkm : m = k := by omega
      have hinv2 : ∀ j, j < k →
          ((scores.set (minScoreIndex scores)
            (scores.getD (minScoreIndex scores) 0 + t.score)).getD j 0 = 0 ↔ m ≤ j) := by
        intro j hjk
        rw [getD_set_general]
        by_cases hc : minScoreIndex scores = j ∧ minScoreIndex scores < scores.length
        · rw [if_pos hc]
          constructor
          · intro h
            omega
          · intro h
            omega
        · rw [if_neg hc]
          exact hinv j hjk
      have hres := ih m
        (shards.set (minScoreIndex scores)
          (shards.getD (minScoreIndex scores) [] ++ [t.file]))
        (scores.set (minScoreIndex scores)
          (scores.getD (minScoreIndex scores) 0 + t.score))
        (by simpa using hlen) hmk
        (fun u hu => hpos u (by simp [hu])) hinv2 i hik
      have h1 : min (m + rest.length) k = k := by omega
      have h2 : min (m + (rest.length + 1)) k = k := by omega
      rw [h1] at hres
      simp only [List.length_cons]
      rw [h2]
      simpa using hres

/-! ## Bridging facts about the weights list -/

theorem sortedWeights_perm (w : String → Nat) (testFiles : List String) :
    List.Perm (sortedWeights w testFiles) (complexityWeights w testFiles) :=
  sortByScoreDesc_perm _

theorem complexityWeights_map_file (w : String → Nat) (testFiles : List String) :
    (complexityWeights w testFiles).map (fun t => t.file) = testFiles := by
  simp [complexityWeights, List.map_map, Function.comp_def]

theorem mem_complexityWeights_score (w : String → Nat) (testFiles : List String) :
    ∀ t ∈ complexityWeights w testFiles, t.score = w t.file ∧ t.file ∈ testFiles := by
  intro t ht
  obtain ⟨f, hf, rfl⟩ := List.mem_map.mp ht
  exact ⟨rfl, hf⟩

theorem mem_sortedWeights_score (w : String → Nat) (testFiles : List String) :
    ∀ t ∈ sortedWeights w testFiles, t.score = w t.file ∧ t.file ∈ testFiles := by
  intro t ht
  exact mem_complexityWeights_score w testFiles t
    ((sortedWeights_perm w testFiles).mem_iff.mp ht)

theorem le_maxSingleWeight (w : String → Nat) :
    ∀ (testFiles : List String), ∀ f ∈ testFiles, w f ≤ maxSingleWeight w testFiles := by
  intro testFiles
  induction testFiles with
  | nil => intro f hf; simp at hf
  | cons g gs ih =>
    intro f hf
    have hexp : maxSingleWeight w (g :: gs) = max (w g) (maxSingleWeight w gs) := by
      simp [maxSingleWeight]
    rcases List.mem_cons.mp hf with hf | hf
    · subst hf; rw [hexp]; exact le_max_left _ _
    · rw [hexp]; exact le_trans (ih f hf) (le_max_right _ _)

theorem sortedWeights_scores_sum (w : String → Nat) (testFiles : List String) :
    ((sortedWeights w testFiles).map (fun t => t.score)).sum = totalWeight w testFiles := by
  have hperm := (sortedWeights_perm w testFiles).map (fun t => t.score)
  rw [hperm.sum_eq]
  simp [complexityWeights, totalWeight, List.map_map, Function.comp_def]

theorem sortedWeights_length (w : String → Nat) (testFiles : List String) :
    (sortedWeights w testFiles).length = testFiles.length := by
  rw [(sortedWeights_perm w testFiles).length_eq]
  simp [complexityWeights]

theorem getD_replicate_zero (k i : Nat) : (List.replicate k (0 : Nat)).getD i 0 = 0 := by
  by_cases hi : i < k
  · rw [List.getD_eq_getElem _ _ (by simpa using hi)]
    simp
  · rw [List.getD_eq_getElem?_getD, List.getElem?_eq_none (by simpa using hi)]
    rfl

theorem replicate_map_shardWeight (w : String → Nat) (k : Nat) :
    (List.replicate k ([] : List String)).map (shardWeight w) = List.replicate k 0 := by
  rw [List.map_replicate]
  simp [shardWeight]

theorem pathOnlyScore_pos (testFile : String) : 1 ≤ pathOnlyScore testFile := by
  simp only [pathOnlyScore]
  split_ifs <;> omega

theorem shardByTestFileCount_eq (files : List String) (s : Nat) (hne : files ≠ []) :
    shardByTestFileCount files s =
      distributeRoundRobin (min s files.length) files 0
        (List.replicate (min s files.length) []) := by
  have h : ¬((files.length == 0) = true) := by
    simp only [beq_iff_eq, List.length_eq_zero]
    exact hne
  simp only [shardByTestFileCount, if_neg h]

theorem shardByComplexity_eq (w : String → Nat) (files : List String) (s : Nat)
    (hne : files ≠ []) :
    shardByComplexity w files s =
      (assignTests (sortedWeights w files)
        (List.replicate (min s files.length) [])
        (List.replicate (min s files.length) 0)).1 := by
  have h : ¬((files.length == 0) = true) := by
    simp only [beq_iff_eq, List.length_eq_zero]
    exact hne
  simp only [shardByComplexity, if_neg h]

/-! ## Claim theorems -/

/-- C1: for every non-empty list of files and every requested shard count of
at least 1, both partitioning algorithms return a shard set whose flattened
contents are a permutation of the input, so every input file appears in
exactly one shard (counting multiplicity) and the union of the shards
equals the input exactly, with no duplication and no loss. -/
theorem shardAlgorithms_exact_partition (w : String → Nat) (files : List String) (s : Nat)
    (hne : files ≠ []) (hs : 1 ≤ s) :
    List.Perm (shardByTestFileCount files s).flatten files ∧
    List.Perm (shardByComplexity w files s).flatten files ∧
    (∀ f, (shardByTestFileCount files s).flatten.count f = files.count f) ∧
    (∀ f, (shardByComplexity w files s).flatten.count f = files.count f) := by
  have hk : 0 < min s files.length := by
    have := List.length_pos.mpr hne
    omega
  have hrep : (List.replicate (min s files.length) ([] : List String)).flatten = [] := by
    simp
  have h1 : List.Perm (shardByTestFileCount files s).flatten files := by
    rw [shardByTestFileCount_eq files s hne]
    have h := distributeRoundRobin_flatten (min s files.length) hk files 0
      (List.replicate (min s files.length) []) (by simp)
    rw [hrep] at h
    simpa using h
  have h2 : List.Perm (shardByComplexity w files s).flatten files := by
    rw [shardByComplexity_eq w files s hne]
    have ha := assignTests_flatten (sortedWeights w files)
      (List.replicate (min s files.length) []) (List.replicate (min s files.length) 0)
      (by simp) (by simpa using hk)
    rw [hrep] at ha
    have hmapped : List.Perm ((sortedWeights w files).map (fun t => t.file)) files := by
      have hp := (sortedWeights_perm w files).map (fun t => t.file)
      rw [complexityWeights_map_file] at hp
      exact hp
    refine ha.trans ?_
    simpa using hmapped
  exact ⟨h1, h2, fun f => h1.count_eq f, fun f => h2.count_eq f⟩

theorem shardAlgorithms_exact_partition_witness :
    List.Perm (shardByTestFileCount ["a/T1.scala", "a/T2.scala", "a/T3.scala"] 2).flatten
      ["a/T1.scala", "a/T2.scala", "a/T3.scala"] ∧
    List.Perm (shardByComplexity (fun _ => 1)
        ["a/T1.scala", "a/T2.scala", "a/T3.scala"] 2).flatten
      ["a/T1.scala", "a/T2.scala", "a/T3.scala"] :=
  ⟨(shardAlgorithms_exact_partition (fun _ => 1) ["a/T1.scala", "a/T2.scala", "a/T3.scala"] 2
      (by decide) (by decide)).1,
   (shardAlgorithms_exact_partition (fun _ => 1) ["a/T1.scala", "a/T2.scala", "a/T3.scala"] 2
      (by decide) (by decide)).2.1⟩

/-- C2: for every file list and every requested shard count, both
algorithms return exactly min(requestedShards, files.length) shards, and
for the empty file list they return the empty shard list regardless of the
requested count. -/
theorem shardAlgorithms_length_min (w : String → Nat) (files : List String) (s : Nat) :
    (shardByTestFileCount files s).length = min s files.length ∧
    (shardByComplexity w files s).length = min s files.length ∧
    (files = [] → shardByTestFileCount files s = [] ∧ shardByComplexity w files s = []) := by
  by_cases hne : files = []
  · subst hne
    refine ⟨?_, ?_, fun _ => ⟨rfl, rfl⟩⟩ <;> simp [shardByTestFileCount, shardByComplexity]
  · have h1 : (shardByTestFileCount files s).length = min s files.length := by
      rw [shardByTestFileCount_eq files s hne, distributeRoundRobin_length]
      simp
    have h2 : (shardByComplexity w files s).length = min s files.length := by
      rw [shardByComplexity_eq w files s hne, (assignTests_length _ _ _).1]
      simp
    exact ⟨h1, h2, fun h => absurd h hne⟩

theorem shardAlgorithms_length_min_witness :
    (shardByTestFileCount ["A.scala", "B.scala", "C.scala"] 5).length = min 5 3 ∧
    shardByTestFileCount [] 7 = [] ∧ shardByComplexity (fun _ => 1) [] 7 = [] :=
  ⟨by simpa using (shardAlgorithms_length_min (fun _ => 1) ["A.scala", "B.scala", "C.scala"] 5).1,
   (shardAlgorithms_length_min (fun _ => 1) [] 7).2.2 rfl⟩

/-- C9: calculateOptimalShards is not monotone in the file count: it
returns 4 for every file count from 16 to 20 and 3 for every file count
from 21 to 30, so adding test files can strictly decrease the
recommendation. -/
theorem calculateOptimalShards_nonmonotone (n : Nat) :
    (16 ≤ n → n ≤ 20 → calculateOptimalShards n = 4) ∧
    (21 ≤ n → n ≤ 30 → calculateOptimalShards n = 3) := by
  constructor
  · intro h1 h2
    interval_cases n <;> rfl
  · intro h1 h2
    interval_cases n <;> rfl

theorem calculateOptimalShards_nonmonotone_witness :
    calculateOptimalShards 20 = 4 ∧ calculateOptimalShards 21 = 3 :=
  ⟨(calculateOptimalShards_nonmonotone 20).1 (by decide) (by decide),
   (calculateOptimalShards_nonmonotone 21).2 (by decide) (by decide)⟩

/-- C10: for every non-empty file list and requested shard count of at
least 1, every shard produced by either algorithm is non-empty, the
weighted algorithm under per-file weights of at least 1. -/
theorem shardAlgorithms_shards_nonempty (w : String → Nat) (files : List String) (s : Nat)
    (hne : files ≠ []) (hs : 1 ≤ s) (hw : ∀ f ∈ files, 1 ≤ w f) :
    (∀ sh ∈ shardByTestFileCount files s, sh ≠ []) ∧
    (∀ sh ∈ shardByComplexity w files s, sh ≠ []) := by
  have hlenf : 0 < files.length := List.length_pos.mpr hne
  have hk : 0 < min s files.length := by omega
  have hkf : min s files.length ≤ files.length := by omega
  constructor
  · intro sh hsh
    rw [shardByTestFileCount_eq files s hne] at hsh
    obtain ⟨j, hj, hjv⟩ := List.mem_iff_getElem.mp hsh
    have hjlen : j < min s files.length := by
      have hl := distributeRoundRobin_length (min s files.length) files 0
        (List.replicate (min s files.length) [])
      rw [hl] at hj
      simpa using hj
    have hgd : (distributeRoundRobin (min s files.length) files 0
        (List.replicate (min s files.length) [])).getD j [] = sh := by
      rw [List.getD_eq_getElem _ _ hj]
      exact hjv
    have hres := distributeRoundRobin_nonempty (min s files.length) hk files 0
      (List.replicate (min s files.length) []) (by simp) j
      ⟨j, by omega, by simpa using Nat.mod_eq_of_lt hjlen⟩
    rw [hgd] at hres
    exact hres
  · intro sh hsh
    rw [shardByComplexity_eq w files s hne] at hsh
    obtain ⟨j, hj, hjv⟩ := List.mem_iff_getElem.mp hsh
    have hjlen : j < min s files.length := by
      have hl := (assignTests_length (sortedWeights w files)
        (List.replicate (min s files.length) [])
        (List.replicate (min s files.length) 0)).1
      rw [hl] at hj
      simpa using hj
    have hw2 : ∀ t ∈ sortedWeights w files, 1 ≤ t.score := by
      intro t ht
      obtain ⟨hsc, hmem⟩ := mem_sortedWeights_score w files t ht
      rw [hsc]
      exact hw _ hmem
    have hnz := assignTests_nonzero (min s files.length) hk (sortedWeights w files) 0
      (List.replicate (min s files.length) []) (List.replicate (min s files.length) 0)
      (by simp) (by omega) hw2
      (fun i hik => by simp [getD_replicate_zero]) j hjlen
    rw [sortedWeights_length] at hnz
    have hmin : min (0 + files.length) (min s files.length) = min s files.length := by
      omega
    rw [hmin] at hnz
    have hne0 : ¬ ((assignTests (sortedWeights w files)
        (List.replicate (min s files.length) [])
        (List.replicate (min s files.length) 0)).2.getD j 0 = 0) := by
      intro h
      have := hnz.mp h
      omega
    have hseq := assignTests_scores_eq w (sortedWeights w files)
      (List.replicate (min s files.length) []) (List.replicate (min s files.length) 0)
      (replicate_map_shardWeight w (min s files.length)).symm (by simpa using hk)
      (fun t ht => (mem_sortedWeights_score w files t ht).1)
    rw [hseq] at hne0
    have hjlen2 : j < (assignTests (sortedWeights w files)
        (List.replicate (min s files.length) [])
        (List.replicate (min s files.length) 0)).1.length := by
      rw [(assignTests_length _ _ _).1]
      simpa using hjlen
    have hmap := getD_map_shardWeight w
      (assignTests (sortedWeights w files)
        (List.replicate (min s files.length) [])
        (List.replicate (min s files.length) 0)).1 j hjlen2
    rw [hmap] at hne0
    have hgd : (assignTests (sortedWeights w files)
        (List.replicate (min s files.length) [])
        (List.replicate (min s files.length) 0)).1.getD j [] = sh := by
      rw [List.getD_eq_getElem _ _ hjlen2]
      exact hjv
    rw [hgd] at hne0
    intro hcon
    apply hne0
    rw [hcon]
    rfl

theorem shardAlgorithms_shards_nonempty_witness :
    (["X.scala"] : List String) ≠ [] ∧ (["Y.scala"] : List String) ≠ [] :=
  ⟨(shardAlgorithms_shards_nonempty (fun _ => 1) ["X.scala", "Y.scala"] 2
      (by decide) (by decide) (fun f _ => le_refl 1)).1 ["X.scala"] (by decide),
   (shardAlgorithms_shards_nonempty (fun _ => 1) ["X.scala", "Y.scala"] 2
      (by decide) (by decide) (fun f _ => le_refl 1)).2 ["Y.scala"] (by decide)⟩

/-- C3: the weighted algorithm consumes the files in stable descending
weight order (the sorted list is a permutation of the weights list, is
sorted by score descending, and preserves the original order within each
equal-score class), and each file in that order is pushed onto the shard
whose running total is smallest, with the lowest index winning ties, after
which the weight is added to that total. -/
theorem shardByComplexity_refines_greedySpec (w : String → Nat) (files : List String)
    (s : Nat) :
    List.Perm (sortedWeights w files) (complexityWeights w files) ∧
    (sortedWeights w files).Pairwise (fun a b => b.score ≤ a.score) ∧
    (∀ c, (sortedWeights w files).filter (fun t => t.score == c) =
      (complexityWeights w files).filter (fun t => t.score == c)) ∧
    (files ≠ [] → 1 ≤ s →
      shardByComplexity w files s =
        (assignTests (sortedWeights w files)
          (List.replicate (min s files.length) [])
          (List.replicate (min s files.length) 0)).1) ∧
    (∀ scores : List Nat, scores ≠ [] →
      minScoreIndex scores < scores.length ∧
      (∀ j, j < scores.length →
        scores.getD (minScoreIndex scores) 0 ≤ scores.getD j 0) ∧
      (∀ j, j < minScoreIndex scores →
        scores.getD (minScoreIndex scores) 0 < scores.getD j 0)) ∧
    (∀ (rest : List TestComplexity) (t : TestComplexity) (shards : List (List String))
      (scores : List Nat),
      assignTests (t :: rest) shards scores =
        assignTests rest
          (shards.set (minScoreIndex scores)
            (shards.getD (minScoreIndex scores) [] ++ [t.file]))
          (scores.set (minScoreIndex scores)
            (scores.getD (minScoreIndex scores) 0 + t.score))) :=
  ⟨sortedWeights_perm w files,
   sortByScoreDesc_sorted (complexityWeights w files),
   fun c => filter_sortByScoreDesc c (complexityWeights w files),
   fun hne _ => shardByComplexity_eq w files s hne,
   fun scores hne =>
     ⟨minScoreIndex_lt_length hne, minScoreIndex_min scores, minScoreIndex_leftmost scores⟩,
   fun _ _ _ _ => rfl⟩

theorem shardByComplexity_refines_greedySpec_witness :
    shardByComplexity (fun _ => 1) ["A.scala"] 1 =
      (assignTests (sortedWeights (fun _ => 1) ["A.scala"])
        (List.replicate (min 1 (["A.scala"] : List String).length) [])
        (List.replicate (min 1 (["A.scala"] : List String).length) 0)).1 :=
  (shardByComplexity_refines_greedySpec (fun _ => 1) ["A.scala"] 1).2.2.2.1
    (by decide) (by decide)

/-- C5: the complexity estimator is a total function returning a score of
at least 1 for every input, and whenever the path check fails, the stat
fails, or the content read fails, the result is exactly the path-only
score: a failed read never aborts the computation. -/
theorem analyzeTestComplexity_total_floor (env : FsEnv) (testFile : String) :
    1 ≤ (analyzeTestComplexity env testFile).1 ∧
    (env.validPath = false →
      (analyzeTestComplexity env testFile).1 = pathOnlyScore testFile) ∧
    (env.stat = none → (analyzeTestComplexity env testFile).1 = pathOnlyScore testFile) ∧
    (env.read = none → (analyzeTestComplexity env testFile).1 = pathOnlyScore testFile) := by
  have hp := pathOnlyScore_pos testFile
  rcases env with ⟨vp, st, rd⟩
  refine ⟨?_, ?_, ?_, ?_⟩
  · cases vp
    · simpa [analyzeTestComplexity] using hp
    · cases st with
      | none => simpa [analyzeTestComplexity] using hp
      | some size =>
        by_cases hsz : size > MAX_FILE_SIZE
        · simpa [analyzeTestComplexity, hsz] using hp
        · cases rd with
          | none => simpa [analyzeTestComplexity, hsz] using hp
          | some raw =>
            have hval : (analyzeTestComplexity ⟨true, some size, some raw⟩ testFile).1 =
                pathOnlyScore testFile + contentScore (lowerList raw) := by
              simp [analyzeTestComplexity, hsz]
            rw [hval]
            omega
  · intro h
    cases vp
    · simp [analyzeTestComplexity]
    · exact absurd h (by simp)
  · intro h
    subst h
    cases vp <;> simp [analyzeTestComplexity]
  · intro h
    subst h
    cases vp
    · simp [analyzeTestComplexity]
    · cases st with
      | none => simp [analyzeTestComplexity]
      | some size => by_cases hsz : size > MAX_FILE_SIZE <;> simp [analyzeTestComplexity, hsz]

theorem analyzeTestComplexity_total_floor_witness :
    1 ≤ (analyzeTestComplexity ⟨true, some 5, none⟩ "a/MissingTest.scala").1 ∧
    (analyzeTestComplexity ⟨true, some 5, none⟩ "a/MissingTest.scala").1 =
      pathOnlyScore "a/MissingTest.scala" :=
  ⟨(analyzeTestComplexity_total_floor ⟨true, some 5, none⟩ "a/MissingTest.scala").1,
   (analyzeTestComplexity_total_floor ⟨true, some 5, none⟩ "a/MissingTest.scala").2.2.2 rfl⟩

/-- C6: a path rejected by the containment check yields the path-only
score with a diagnostic and the result never depends on any read outcome,
and a file larger than the 10 MiB ceiling yields the path-only score with
a diagnostic, again independent of any read outcome: in both cases no
content is consulted. -/
theorem analyzeTestComplexity_read_guards (testFile : String) (st : Option Nat)
    (r₁ r₂ : Option String) (size : Nat) :
    (analyzeTestComplexity ⟨false, st, r₁⟩ testFile =
      (pathOnlyScore testFile,
        ["Invalid file path detected (possible path traversal): " ++ testFile]) ∧
      analyzeTestComplexity ⟨false, st, r₁⟩ testFile =
        analyzeTestComplexity ⟨false, st, r₂⟩ testFile) ∧
    (size > MAX_FILE_SIZE →
      analyzeTestComplexity ⟨true, some size, r₁⟩ testFile =
        (pathOnlyScore testFile,
          ["File too large for complexity analysis (" ++ toString size ++ " bytes > " ++
            toString MAX_FILE_SIZE ++ "): " ++ testFile]) ∧
      analyzeTestComplexity ⟨true, some size, r₁⟩ testFile =
        analyzeTestComplexity ⟨true, some size, r₂⟩ testFile) := by
  constructor
  · constructor <;> simp [analyzeTestComplexity]
  · intro hsz
    constructor <;> simp [analyzeTestComplexity, hsz]

theorem analyzeTestComplexity_read_guards_witness :
    analyzeTestComplexity ⟨true, some (MAX_FILE_SIZE + 1), some "class T"⟩ "T.scala" =
      (pathOnlyScore "T.scala",
        ["File too large for complexity analysis (" ++ toString (MAX_FILE_SIZE + 1) ++
          " bytes > " ++ toString MAX_FILE_SIZE ++ "): " ++ "T.scala"]) :=
  ((analyzeTestComplexity_read_guards "T.scala" (some (MAX_FILE_SIZE + 1))
      (some "class T") none (MAX_FILE_SIZE + 1)).2 (Nat.lt_succ_self _)).1

/-- C7: the historical weight resolver returns the recorded value verbatim
when the map is present and contains the path, and the complexity score
otherwise: with the map binding t.scala to 50.5, resolving t.scala with
fallback 10 gives 50.5, resolving an unrecorded path gives 10, and
resolving with an absent map gives 10. -/
theorem getTestWeight_resolution :
    getTestWeight "t.scala" (some [("t.scala", (101 : ℚ) / 2)]) 10 = (101 : ℚ) / 2 ∧
    getTestWeight "other.scala" (some [("t.scala", (101 : ℚ) / 2)]) 10 = 10 ∧
    getTestWeight "t.scala" none 10 = 10 :=
  ⟨rfl, rfl, rfl⟩

/-- C4: for every non-empty file list, requested shard count of at least
1, and per-file weights of at least 1, every shard the weighted algorithm
produces (in particular the heaviest one) has aggregate weight at most the
total weight divided by the actual shard count plus the maximum single
weight. -/
theorem shardByComplexity_maxShard_bound (w : String → Nat) (files : List String) (s : Nat)
    (hne : files ≠ []) (hs : 1 ≤ s) (hw : ∀ f ∈ files, 1 ≤ w f) :
    ∀ sh ∈ shardByComplexity w files s,
      (shardWeight w sh : ℚ) ≤
        (totalWeight w files : ℚ) / ((min s files.length : Nat) : ℚ) +
          (maxSingleWeight w files : ℚ) := by
  intro sh hsh
  have hlenf : 0 < files.length := List.length_pos.mpr hne
  have hk : 0 < min s files.length := by omega
  rw [shardByComplexity_eq w files s hne] at hsh
  obtain ⟨j, hj, hjv⟩ := List.mem_iff_getElem.mp hsh
  have hjk : j < min s files.length := by
    have hl := (assignTests_length (sortedWeights w files)
      (List.replicate (min s files.length) [])
      (List.replicate (min s files.length) 0)).1
    rw [hl] at hj
    simpa using hj
  have hM : ∀ t ∈ sortedWeights w files, t.score ≤ maxSingleWeight w files := by
    intro t ht
    obtain ⟨hsc, hmem⟩ := mem_sortedWeights_score w files t ht
    rw [hsc]
    exact le_maxSingleWeight w files _ hmem
  have hbound := assignTests_bound (maxSingleWeight w files) (min s files.length) hk
    (sortedWeights w files) (List.replicate (min s files.length) [])
    (List.replicate (min s files.length) 0) (by simp) hM
    (fun i hik => by simp [getD_replicate_zero]) j hjk
  have hsum : (assignTests (sortedWeights w files)
      (List.replicate (min s files.length) [])
      (List.replicate (min s files.length) 0)).2.sum = totalWeight w files := by
    rw [assignTests_scores_sum _ _ _ (by
      intro h
      have hc := congrArg List.length h
      rw [List.length_replicate, List.length_nil] at hc
      omega)]
    rw [sortedWeights_scores_sum]
    simp
  have hseq := assignTests_scores_eq w (sortedWeights w files)
    (List.replicate (min s files.length) []) (List.replicate (min s files.length) 0)
    (replicate_map_shardWeight w (min s files.length)).symm (by simpa using hk)
    (fun t ht => (mem_sortedWeights_score w files t ht).1)
  have hgval : (assignTests (sortedWeights w files)
      (List.replicate (min s files.length) [])
      (List.replicate (min s files.length) 0)).2.getD j 0 = shardWeight w sh := by
    rw [hseq, getD_map_shardWeight w _ j hj, List.getD_eq_getElem _ _ hj, hjv]
  rw [hgval, hsum] at hbound
  have hb2 : (min s files.length) * shardWeight w sh ≤
      totalWeight w files + (min s files.length) * maxSingleWeight w files := by
    have hle : (min s files.length - 1) * maxSingleWeight w files ≤
        (min s files.length) * maxSingleWeight w files :=
      Nat.mul_le_mul_right _ (by omega)
    omega
  have hQ : ((min s files.length : Nat) : ℚ) * (shardWeight w sh : ℚ) ≤
      (totalWeight w files : ℚ) +
        ((min s files.length : Nat) : ℚ) * (maxSingleWeight w files : ℚ) := by
    exact_mod_cast hb2
  have hkQ : (0 : ℚ) < ((min s files.length : Nat) : ℚ) := by exact_mod_cast hk
  rw [div_add' _ _ _ (ne_of_gt hkQ), le_div_iff₀ hkQ]
  have hcomm : (shardWeight w sh : ℚ) * ((min s files.length : Nat) : ℚ) =
      ((min s files.length : Nat) : ℚ) * (shardWeight w sh : ℚ) := mul_comm _ _
  rw [hcomm]
  have hring : (totalWeight w files : ℚ) +
      (maxSingleWeight w files : ℚ) * ((min s files.length : Nat) : ℚ) =
      (totalWeight w files : ℚ) +
        ((min s files.length : Nat) : ℚ) * (maxSingleWeight w files : ℚ) := by ring
  rw [hring]
  exact hQ

theorem shardByComplexity_maxShard_bound_witness :
    (shardWeight (fun _ => 1) ["a"] : ℚ) ≤
      (totalWeight (fun _ => 1) ["a", "b"] : ℚ) /
        ((min 2 (["a", "b"] : List String).length : Nat) : ℚ) +
        (maxSingleWeight (fun _ => 1) ["a", "b"] : ℚ) :=
  shardByComplexity_maxShard_bound (fun _ => 1) ["a", "b"] 2 (by decide) (by decide)
    (fun f _ => le_refl 1) ["a"] (by decide)

/-- C8 counterexample: run fails on an input whose max-shards is the valid
numeric string 4 (positive, below the ceiling) and whose algorithm is the
known round-robin, because the shard-number input 0 fails its own
validation — a failure cause outside the enumerated ones. -/
theorem run_failure_outside_claimed_causes :
    run { validPath := fun _ => true, discovered := ["src/test/scala/ATest.scala"],
          weight := fun _ => 1 }
        { maxShardsInput := "4", shardNumberInput := "0",
          algorithmInput := "round-robin", projectPathInput := "" } =
      Except.error "shard-number must be a positive integer" ∧
    claimedConfigError
        { maxShardsInput := "4", shardNumberInput := "0",
          algorithmInput := "round-robin", projectPathInput := "" } = false :=
  ⟨rfl, rfl⟩

set_option maxHeartbeats 2000000 in
/-- C8 (amended): run fails exactly when configuration validation fails —
over-long or invalid project-path, non-positive or non-numeric
shard-number, absent, non-positive, non-numeric or above-the-ceiling
max-shards, or an unknown algorithm name reached with a non-empty file
list; once validation passes, planning cannot fail and an output is
returned. -/
theorem run_error_iff_validationFails (env : RunEnv) (inp : RunInputs) :
    (∃ e, run env inp = Except.error e) ↔ runValidationFails env inp = true := by
  unfold run
  repeat' split
  all_goals
    first
      | (refine iff_of_true ⟨_, rfl⟩ ?_
         simp_all only [runValidationFails, Bool.not_eq_true, Bool.true_or, Bool.false_or,
           Bool.or_true, Bool.or_false, Bool.not_true, Bool.not_false, Bool.true_and,
           Bool.false_and, Bool.and_true, Bool.and_false, decide_True, decide_False])
      | (refine iff_of_false ?_ ?_
         · rintro ⟨e, he⟩
           exact Except.noConfusion he
         · intro hrv
           simp_all only [runValidationFails, Bool.not_eq_true, Bool.true_or, Bool.false_or,
             Bool.or_true, Bool.or_false, Bool.not_true, Bool.not_false, Bool.true_and,
             Bool.false_and, Bool.and_true, Bool.and_false, decide_True, decide_False,
             Bool.false_eq_true])

end SbtSharding
